import Mathlib

/-!
# ancient-protocols: the character generator (chargen.c) and discard (discard.c) daemons

A shallow embedding of the three worker routines

* `tcp_handler` of chargen.c (stream character generator),
* `udp_handler` of chargen.c (datagram character generator),
* `client_handler` of discard.c (discard, both transports),

together with the C library string routines they call (`strlen`, `strncpy`, `strcat`).

Conventions of the embedding.

* A `char` is a `Nat` (its code); a memory object is a `List Nat`.  A C string constant is the
  object holding its characters followed by the terminator `0`.
* The frame of `tcp_handler` is modelled by the memory region that starts at `&buf[0]`: its
  first `TCP_SIZE + 3` bytes are the array `buf`, what follows (if the region is longer) are the
  bytes that lie behind the array in the address space.  The source does not say where the
  `int` variables `bytes`, `fd`, `i` and `len` of the same frame are kept; a `Frame` gives, for
  each of them, its offset in the region or says that it is kept in a register.  A variable
  kept in the region is read from and written to the region, so that a store of `strcat` that
  leaves the array can change it.  An `int` has four bytes, the least significant first.  The
  initial contents of the region are a parameter, since nothing of it is initialised.  An access
  outside the region or outside a string constant, a division by zero and an overflowing
  addition are faults: the behaviour of the program is undefined from there on, and the trace
  ends.
* Results of system calls (`send`, `recvfrom`, `sendto`) are inputs: the list of results is the
  finite part of the environment that is observed, and a worker whose list is exhausted is still
  inside its loop.
* A worker yields the trace of the calls it makes, in order.
-/

namespace Chargen

/-- PRINTABLE of chargen.c, line 41. -/
def PRINTABLE : String :=
  "!\"#$%&\x27()*+,-./0123456789:;<=>?@ABCDEFGHIJKLMNOPQRSTUVWXYZ[\\]^_\x60abcdefghijklmnopqrstuvwxyz\x7b|\x7d~ "

/-- TCP_SIZE of chargen.c, line 42. -/
def TCP_SIZE : Nat := 72

/-- UDP_SIZE of chargen.c, line 43. -/
def UDP_SIZE : Nat := 512

/-- The object of a C string literal: the character codes and the terminator. -/
def cstring (s : String) : List Nat :=
  s.toList.map Char.toNat ++ [0]

/-- The object `printable = PRINTABLE PRINTABLE` (chargen.c, line 45): the two adjacent literals
are one literal. -/
def printable : List Nat :=
  cstring (PRINTABLE ++ PRINTABLE)

/-- The object `trailer = "\r\n"` (chargen.c, line 46). -/
def trailer : List Nat :=
  cstring "\r\n"

/-- C `strlen`: the number of bytes before the first terminator.  On an object without
terminator the scan leaves the object; the result is then the size of the object, which the
callers below compare with that size. -/
def strlen : List Nat → Nat
  | [] => 0
  | 0 :: _ => 0
  | (_ + 1) :: rest => strlen rest + 1

/-- The copying loop of C `strncpy(dst, src + off, n)`: the `n` bytes stored and the indices of
`src` that are read.  Bytes are copied up to and including the terminator, the rest of the `n`
bytes is filled with `0`; no terminator is stored when the first `n` bytes of the source hold
none.  `none` when a read leaves the source object. -/
def strncpy_go (src : List Nat) : Nat → Nat → Option (List Nat × List Nat)
  | _, 0 => some ([], [])
  | off, n + 1 =>
    match src[off]? with
    | none => none
    | some 0 => some (List.replicate (n + 1) 0, [off])
    | some (c + 1) =>
      match strncpy_go src (off + 1) n with
      | none => none
      | some (bytes, reads) => some ((c + 1) :: bytes, off :: reads)

/-- C `strncpy(dst, src + off, n)` on the region `dst`: the region afterwards and the indices of
`src` read.  `none` when the `n` bytes do not fit the region or a read leaves `src`. -/
def strncpy (dst src : List Nat) (off n : Nat) : Option (List Nat × List Nat) :=
  if n ≤ dst.length then
    match strncpy_go src off n with
    | none => none
    | some (bytes, reads) => some (bytes ++ dst.drop n, reads)
  else none

/-- C `strcat(dst, src)` on the region `dst`: the characters of `src` and a terminator are
stored from the first terminator of `dst` on.  `none` when `dst` has no terminator inside the
region or the stored bytes do not fit the region. -/
def strcat (dst src : List Nat) : Option (List Nat) :=
  if strlen dst + strlen src + 1 ≤ dst.length then
    some (dst.take (strlen dst) ++ (src.take (strlen src) ++ [0])
      ++ dst.drop (strlen dst + strlen src + 1))
  else none

/-- The index of the last byte `strcat(dst, src)` stores (the new terminator). -/
def strcat_top (dst src : List Nat) : Nat :=
  strlen dst + strlen src

/-- Where the `int` variables of `tcp_handler` (chargen.c, line 52) are kept: `some o` says that
the four bytes of the variable lie in the region at `buf`, from offset `o` on; `none` says that
the variable is kept in a register (or in memory outside the region, where no store to the
region reaches it). -/
structure Frame where
  /-- The place of `bytes`. -/
  bytes : Option Nat
  /-- The place of `fd`. -/
  fd : Option Nat
  /-- The place of `i`. -/
  i : Option Nat
  /-- The place of `len`. -/
  len : Option Nat
  deriving DecidableEq, Repr

/-- The frame that keeps the four variables in registers. -/
def Frame.registers : Frame :=
  ⟨none, none, none, none⟩

/-- The four bytes of an `int`, the least significant first. -/
def int_bytes (v : Int) : List Nat :=
  [(v % 4294967296).toNat % 256, (v % 4294967296).toNat / 256 % 256,
    (v % 4294967296).toNat / 65536 % 256, (v % 4294967296).toNat / 16777216 % 256]

/-- The `int` whose four bytes lie in `mem` from offset `o` on; `none` when they do not lie
inside the region. -/
def load (mem : List Nat) (o : Nat) : Option Int :=
  match mem.drop o with
  | b0 :: b1 :: b2 :: b3 :: _ =>
    if b0 + 256 * b1 + 65536 * b2 + 16777216 * b3 < 2147483648 then
      some (Int.ofNat (b0 + 256 * b1 + 65536 * b2 + 16777216 * b3))
    else some (Int.ofNat (b0 + 256 * b1 + 65536 * b2 + 16777216 * b3) - 4294967296)
  | _ => none

/-- The region after the `int` `v` is stored from offset `o` on; `none` when the four bytes do
not lie inside the region. -/
def store (mem : List Nat) (o : Nat) (v : Int) : Option (List Nat) :=
  if o + 4 ≤ mem.length then some (mem.take o ++ (int_bytes v ++ mem.drop (o + 4))) else none

/-- The value of a variable: that of its register `reg`, or what the region holds at its
offset. -/
def get (place : Option Nat) (reg : Int) (mem : List Nat) : Option Int :=
  match place with
  | none => some reg
  | some o => load mem o

/-- The region after an assignment of `v` to a variable (the register of the variable is set by
the caller). -/
def put (place : Option Nat) (v : Int) (mem : List Nat) : Option (List Nat) :=
  match place with
  | none => some mem
  | some o => store mem o v

/-- The state of `tcp_handler`: the region at `buf` and the registers of the four variables (the
register of a variable that is kept in the region is not read). -/
structure Vars where
  /-- The region at `buf`. -/
  mem : List Nat
  /-- The register of `bytes`. -/
  bytes : Int
  /-- The register of `fd`. -/
  fd : Int
  /-- The register of `i`. -/
  i : Int
  /-- The register of `len`. -/
  len : Int
  deriving DecidableEq, Repr

/-- One pass through the body of the loop of `tcp_handler` up to the call of `send`
(chargen.c, lines 63 to 68). -/
structure Line where
  /-- The value of `i` at the start of the pass. -/
  i : Int
  /-- The value of `fd` handed to `send`. -/
  fd : Int
  /-- The indices of `printable` read by `strncpy`. -/
  reads : List Nat
  /-- The region at `buf` after `strncpy`. -/
  copied : List Nat
  /-- The region at `buf` after `strcat`. -/
  built : List Nat
  /-- The index of the last byte stored by `strcat`. -/
  top : Nat
  /-- The bytes handed to `send`: the first `TCP_SIZE + 2` bytes at `buf`. -/
  sent : List Nat
  deriving DecidableEq, Repr

/-- What `tcp_handler` does, in order. -/
inductive TcpEvent where
  /-- A line was built and handed to `send`. -/
  | send (l : Line)
  /-- The call `close(fd)`, with the value of `fd`. -/
  | close (fd : Int)
  /-- A fault in the pass that started with cursor `i` (before the loop: `0`). -/
  | fault (i : Int)
  deriving DecidableEq, Repr

/-- The cursor `i` as the pass that starts in state `s` reads it. -/
def cursor_of (f : Frame) (s : Vars) : Int :=
  (get f.i s.i s.mem).getD s.i

/-- The body of the loop of `tcp_handler` up to the call of `send` (chargen.c, lines 63 to 68):
`strncpy(buf, printable + i, TCP_SIZE + 1)`, `strcat(buf, trailer)` and the arguments of
`send(fd, buf, TCP_SIZE + 2, 0)`. -/
def build (f : Frame) (s : Vars) : Option Line :=
  match get f.i s.i s.mem with
  | none => none
  | some i =>
    if i < 0 then none
    else
      match strncpy s.mem printable i.toNat (TCP_SIZE + 1) with
      | none => none
      | some (copied, reads) =>
        match strcat copied trailer with
        | none => none
        | some built =>
          match get f.fd s.fd built with
          | none => none
          | some fd =>
            if TCP_SIZE + 2 ≤ built.length then
              some ⟨i, fd, reads, copied, built, strcat_top copied trailer,
                built.take (TCP_SIZE + 2)⟩
            else none

/-- The statement `i = (i + 1) % (len / 2)` (chargen.c, line 73), in the arithmetic of C on
`int`: the quotient and the remainder are those of the division that truncates. -/
def advance (f : Frame) (s : Vars) : Option Vars :=
  match get f.i s.i s.mem with
  | none => none
  | some i =>
    match get f.len s.len s.mem with
    | none => none
    | some len =>
      if i + 1 ≤ 2147483647 ∧ Int.tdiv len 2 ≠ 0 then
        match put f.i (Int.tmod (i + 1) (Int.tdiv len 2)) s.mem with
        | none => none
        | some mem =>
          some ⟨mem, s.bytes, s.fd, Int.tmod (i + 1) (Int.tdiv len 2), s.len⟩
      else none

/-- The loop of `tcp_handler` and the call of `close` behind it (chargen.c, lines 61 to 75):
`results` are the values returned by the successive calls of `send`. -/
def tcp_loop (f : Frame) : List Int → Vars → List TcpEvent
  | [], _ => []
  | r :: rest, s =>
    match build f s with
    | none => [TcpEvent.fault (cursor_of f s)]
    | some l =>
      TcpEvent.send l ::
        (match put f.bytes r l.built with
         | none => [TcpEvent.fault l.i]
         | some mem =>
           match get f.bytes r mem with
           | none => [TcpEvent.fault l.i]
           | some bytes =>
             if bytes < 0 then
               match get f.fd s.fd mem with
               | none => [TcpEvent.fault l.i]
               | some fd => [TcpEvent.close fd]
             else
               match advance f ⟨mem, r, s.fd, s.i, s.len⟩ with
               | none => [TcpEvent.fault l.i]
               | some s' => tcp_loop f rest s')

/-- The worker `tcp_handler` (chargen.c, lines 48 to 78) compiled with the frame `f` and started
with the descriptor `fd` on a stack whose region at `buf` holds `mem`; its calls of `send`
return `results`.  The three assignments `i = 0`, `fd = *((int *) data)` and
`len = strlen(printable)` come first. -/
def tcp_handler (f : Frame) (fd : Int) (mem : List Nat) (results : List Int) :
    List TcpEvent :=
  match put f.i 0 mem with
  | none => [TcpEvent.fault 0]
  | some m1 =>
    match put f.fd fd m1 with
    | none => [TcpEvent.fault 0]
    | some m2 =>
      match put f.len (Int.ofNat (strlen printable)) m2 with
      | none => [TcpEvent.fault 0]
      | some m3 => tcp_loop f results ⟨m3, 0, fd, 0, Int.ofNat (strlen printable)⟩

/-- The lines handed to `send`, in order. -/
def lines : List TcpEvent → List (List Nat)
  | [] => []
  | TcpEvent.send l :: rest => l.sent :: lines rest
  | _ :: rest => lines rest

/-- The passes of the loop, in order. -/
def passes : List TcpEvent → List Line
  | [] => []
  | TcpEvent.send l :: rest => l :: passes rest
  | _ :: rest => passes rest

end Chargen

/-- The socket calls of the datagram worker of chargen.c and of the worker of discard.c. -/
inductive Call where
  /-- A call of `recvfrom`. -/
  | recvfrom
  /-- A call `sendto(fd, buf, bytes, ...)`: the contents of `buf` and the byte count. -/
  | sendto (buf : List Nat) (bytes : Nat)
  /-- The call `close(fd)`. -/
  | close
  /-- The call `err(EXIT_FAILURE, ...)`, which ends the process. -/
  | err
  deriving DecidableEq, Repr

/-- The datagrams that the calls `sendto` of a trace hand over: the first `bytes` bytes of
`buf`. -/
def replies : List Call → List (List Nat)
  | [] => []
  | Call.sendto buf bytes :: rest => buf.take bytes :: replies rest
  | _ :: rest => replies rest

namespace Chargen

/-- What the environment does in one pass of the loop of `udp_handler`. -/
structure Datagram where
  /-- The value returned by `recvfrom`. -/
  bytes : Int
  /-- The bytes `recvfrom` stored at the start of `buf` (at most `sizeof(buf)` are kept). -/
  data : List Nat
  /-- The value returned by `sendto`, when the pass reaches it. -/
  sent : Int
  deriving DecidableEq, Repr

/-- The effect of `recvfrom(fd, buf, sizeof(buf), ...)` on `buf`. -/
def recvfrom (buf data : List Nat) : List Nat :=
  data.take buf.length ++ buf.drop (data.take buf.length).length

/-- The loop `for (i = 0; i < bytes; i++) buf[i] = printable[rand_r(&state) % strlen(printable)]`
(chargen.c, lines 104 and 105).  The first argument is `bytes - i`, the number of passes left;
`rand_r state` is the value returned and the new state.  Yields `buf` and `state`. -/
def udp_fill (rand_r : Nat → Nat × Nat) : Nat → Nat → List Nat → Nat → List Nat × Nat
  | 0, _, buf, state => (buf, state)
  | todo + 1, i, buf, state =>
    udp_fill rand_r todo (i + 1)
      (buf.set i (printable.getD ((rand_r state).1 % strlen printable) 0)) (rand_r state).2

/-- The loop of `udp_handler` (chargen.c, lines 94 to 112). -/
def udp_loop (rand_r : Nat → Nat × Nat) : List Datagram → List Nat → Nat → List Call
  | [], _, _ => []
  | d :: rest, buf, state =>
    Call.recvfrom ::
      (if d.bytes < 0 then [Call.close]
       else
         Call.sendto
             (udp_fill rand_r ((rand_r state).1 % UDP_SIZE) 0 (recvfrom buf d.data)
               (rand_r state).2).1
             ((rand_r state).1 % UDP_SIZE) ::
           (if d.sent < 0 then [Call.err]
            else udp_loop rand_r rest
              (udp_fill rand_r ((rand_r state).1 % UDP_SIZE) 0 (recvfrom buf d.data)
                (rand_r state).2).1
              (udp_fill rand_r ((rand_r state).1 % UDP_SIZE) 0 (recvfrom buf d.data)
                (rand_r state).2).2))

/-- The worker `udp_handler` (chargen.c, lines 80 to 115).  Neither `state` nor `buf` is
initialised, both are parameters; `rand_r` is the C library generator. -/
def udp_handler (rand_r : Nat → Nat × Nat) (state : Nat) (buf : List Nat)
    (datagrams : List Datagram) : List Call :=
  udp_loop rand_r datagrams buf state

/-- The reference pattern of the character generator: the codes 33 to 126 in ascending order,
then one space. -/
def P : List Nat :=
  (List.range 94).map (· + 33) ++ [32]

/-- The `TCP_SIZE + 1` bytes of `printable` from index `i` on: what `strncpy` stores at the
start of `buf` in a pass with cursor `i`. -/
def window (i : Nat) : List Nat :=
  (printable.drop i).take (TCP_SIZE + 1)

/-- A frame that keeps the four variables behind `buf`, after one byte of padding, in the
order `len`, `i`, `fd`, `bytes`. -/
def frame_behind : Frame :=
  ⟨some 88, some 84, some 80, some 76⟩

/-- A frame that keeps `bytes` in the region, at offset 80, and the other variables in
registers. -/
def frame_bytes : Frame :=
  ⟨some 80, none, none, none⟩

/-- A generator that returns its state and increments it, used as a concrete `rand_r` in
examples. -/
def counter (state : Nat) : Nat × Nat :=
  (state, state + 1)

end Chargen

namespace Discard

/-- BUF_SIZE of discard.c, line 39. -/
def BUF_SIZE : Nat := 1024

/-- The loop of `client_handler` (discard.c, lines 55 to 63): `results` are the values returned
by the successive calls of `recvfrom`.  The bytes received go to `buf`, which is never read. -/
def client_loop : List Int → List Call
  | [] => []
  | bytes :: rest =>
    Call.recvfrom :: (if bytes ≤ 0 then [Call.close] else client_loop rest)

/-- The worker `client_handler` (discard.c, lines 42 to 66). -/
def client_handler (results : List Int) : List Call :=
  client_loop results

end Discard

/-! ## The constants -/

namespace Chargen

theorem P_length : P.length = 95 := by decide

set_option maxRecDepth 100000 in
theorem P_getElem? : ∀ j < 95, P[j]? = some (if j = 94 then 32 else j + 33) := by decide

theorem P_ne_zero : ∀ x ∈ P, x ≠ 0 := by decide

set_option maxRecDepth 100000 in
theorem PRINTABLE_eq : PRINTABLE.toList.map Char.toNat = P := by decide

set_option maxRecDepth 100000 in
theorem printable_eq : printable = (P ++ P) ++ [0] := by decide

theorem trailer_eq : trailer = [13, 10, 0] := by decide

set_option maxRecDepth 100000 in
theorem strlen_printable : strlen printable = 190 := by decide

theorem strlen_trailer : strlen trailer = 2 := by decide

theorem printable_length : printable.length = 191 := by
  simp [printable_eq, P_length]

theorem printable_getElem? (j : Nat) (h : j < 190) : printable[j]? = P[j % 95]? := by
  rw [printable_eq, List.getElem?_append_left (by simp [P_length]; omega)]
  by_cases h1 : j < 95
  · rw [List.getElem?_append_left (by rw [P_length]; exact h1), Nat.mod_eq_of_lt h1]
  · have h2 : j % 95 = j - 95 := by omega
    rw [List.getElem?_append_right (by rw [P_length]; omega), P_length, h2]

theorem printable_getElem?_ne_zero (j : Nat) (h : j < 190) : printable[j]? ≠ some 0 := by
  rw [printable_getElem? j h, P_getElem? (j % 95) (Nat.mod_lt _ (by decide))]
  intro h0
  injection h0 with h0
  split at h0 <;> omega

/-! ## The string routines -/

theorem strlen_le (l : List Nat) : strlen l ≤ l.length := by
  induction l with
  | nil => simp [strlen]
  | cons x xs ih =>
    cases x with
    | zero => simp [strlen]
    | succ c => simp [strlen]; exact ih

theorem strlen_append (a b : List Nat) (ha : ∀ x ∈ a, x ≠ 0) :
    strlen (a ++ b) = a.length + strlen b := by
  induction a with
  | nil => simp
  | cons x xs ih =>
    cases x with
    | zero => exact absurd rfl (ha 0 (by simp))
    | succ c =>
      have := ih (fun y hy => ha y (by simp [hy]))
      simp [strlen, this]
      omega

theorem strlen_take_ne_zero (t : List Nat) : ∀ x ∈ t.take (strlen t), x ≠ 0 := by
  induction t with
  | nil => simp [strlen]
  | cons y ys ih =>
    cases y with
    | zero => simp [strlen]
    | succ c =>
      intro x hx
      simp [strlen] at hx
      rcases hx with hx | hx
      · omega
      · exact ih x hx

theorem strlen_take_append (t r : List Nat) :
    strlen (t.take (strlen t) ++ 0 :: r) = strlen t := by
  induction t with
  | nil => simp [strlen]
  | cons x xs ih =>
    cases x with
    | zero => simp [strlen]
    | succ c => simp [strlen, ih]

theorem strncpy_go_eq (src : List Nat) :
    ∀ n off, off + n ≤ src.length → (∀ j, off ≤ j → j < off + n → src[j]? ≠ some 0) →
      strncpy_go src off n = some ((src.drop off).take n, List.range' off n) := by
  intro n
  induction n with
  | zero => intro off _ _; simp [strncpy_go]
  | succ n ih =>
    intro off hlen hnz
    have hoff : off < src.length := by omega
    have h1 : src[off]? = some src[off] := List.getElem?_eq_getElem hoff
    have h2 : src[off] ≠ 0 := by
      intro h0
      exact hnz off (le_refl _) (by omega) (by rw [h1, h0])
    obtain ⟨c, hc⟩ : ∃ c, src[off] = c + 1 := ⟨src[off] - 1, by omega⟩
    have h3 := ih (off + 1) (by omega) (fun j hj1 hj2 => hnz j (by omega) (by omega))
    rw [strncpy_go, h1, hc]
    simp only [h3]
    rw [List.drop_eq_getElem_cons hoff, List.take_succ_cons, hc, List.range'_succ]

theorem strcat_append_left (a t src : List Nat) (ha : ∀ x ∈ a, x ≠ 0) :
    strcat (a ++ t) src = (strcat t src).map (fun t' => a ++ t') := by
  unfold strcat
  rw [strlen_append a t ha, List.length_append]
  by_cases h : strlen t + strlen src + 1 ≤ t.length
  · have h' : a.length + strlen t + strlen src + 1 ≤ a.length + t.length := by omega
    rw [if_pos h, if_pos h']
    simp only [Option.map_some']
    congr 1
    rw [List.take_append,
      show a.length + strlen t + strlen src + 1 = a.length + (strlen t + strlen src + 1) by omega,
      List.drop_append]
    simp [List.append_assoc]
  · rw [if_neg h, if_neg (by omega)]
    rfl

theorem strcat_trailer_some (t t' : List Nat) (h : strcat t trailer = some t') :
    strlen t + 3 ≤ t.length ∧ t'.length = t.length ∧ strlen t' = strlen t + 2 ∧
      t' = t.take (strlen t) ++ 13 :: 10 :: 0 :: t.drop (strlen t + 3) := by
  unfold strcat at h
  rw [strlen_trailer] at h
  by_cases hc : strlen t + 2 + 1 ≤ t.length
  · rw [if_pos hc] at h
    injection h with h
    have e : t' = t.take (strlen t) ++ 13 :: 10 :: 0 :: t.drop (strlen t + 3) := by
      rw [← h, trailer_eq]; simp
    refine ⟨by omega, ?_, ?_, e⟩
    · rw [e]; simp; omega
    · rw [e]
      have h1 : strlen (t.take (strlen t) ++ 13 :: 10 :: 0 :: t.drop (strlen t + 3))
          = strlen ((t.take (strlen t) ++ [13, 10]) ++ 0 :: t.drop (strlen t + 3)) := by simp
      rw [h1, strlen_append _ _ ?_]
      · simp [strlen]; omega
      · intro x hx
        rcases List.mem_append.1 hx with hx | hx
        · exact strlen_take_ne_zero t x hx
        · simp at hx; omega
  · rw [if_neg hc] at h
    exact absurd h (by simp)

theorem strcat_trailer_isSome (t : List Nat) (h : strlen t + 3 ≤ t.length) :
    ∃ t', strcat t trailer = some t' := by
  unfold strcat
  rw [strlen_trailer, if_pos (by omega)]
  exact ⟨_, rfl⟩

theorem strcat_trailer_none (t : List Nat) (h : ¬ strlen t + 3 ≤ t.length) :
    strcat t trailer = none := by
  unfold strcat
  rw [strlen_trailer, if_neg (by omega)]

/-! ## One pass of the loop of `tcp_handler` -/

theorem window_length (i : Nat) (hi : i < 95) : (window i).length = 73 := by
  simp [window, TCP_SIZE, printable_length]
  omega

theorem window_getElem? (i k : Nat) (hk : k < 73) : (window i)[k]? = printable[i + k]? := by
  unfold window
  rw [List.getElem?_take_of_lt (by simp [TCP_SIZE]; exact hk), List.getElem?_drop]

theorem window_getElem?_P (i k : Nat) (hi : i < 95) (hk : k < 73) :
    (window i)[k]? = P[(i + k) % 95]? := by
  rw [window_getElem? i k hk, printable_getElem? (i + k) (by omega)]

theorem window_ne_zero (i : Nat) (hi : i < 95) : ∀ x ∈ window i, x ≠ 0 := by
  intro x hx h0
  obtain ⟨k, hk⟩ := List.mem_iff_getElem?.1 hx
  have hk73 : k < 73 := by
    by_contra hge
    have : (window i)[k]? = none := List.getElem?_eq_none (by rw [window_length i hi]; omega)
    rw [this] at hk
    exact absurd hk (by simp)
  rw [window_getElem? i k hk73, h0] at hk
  exact printable_getElem?_ne_zero (i + k) (by omega) hk

theorem strncpy_printable (mem : List Nat) (i : Nat) (hi : i < 95) (h : 73 ≤ mem.length) :
    strncpy mem printable i 73 = some (window i ++ mem.drop 73, List.range' i 73) := by
  unfold strncpy
  rw [if_pos h, strncpy_go_eq printable 73 i (by rw [printable_length]; omega)
    (fun j _ hj => printable_getElem?_ne_zero j (by omega))]
  rfl

/-- A pass of the loop that starts with a cursor below 95 and reaches `send`, in any frame and
on any stack: `strncpy` has stored the 73 pattern characters from the cursor on and no
terminator, these are the first 73 bytes of the line handed to `send`, and `strcat` has stored
its terminator at an index of at least `TCP_SIZE + 3`, behind the array. -/
theorem build_overruns_buf (f : Frame) (s : Vars) (l : Line) (h : build f s = some l)
    (hi : l.i < 95) :
    0 ≤ l.i ∧ l.sent.length = TCP_SIZE + 2 ∧
      (∀ k < 73, l.copied[k]? = P[(l.i.toNat + k) % 95]?) ∧
      (∀ k < 73, l.sent[k]? = P[(l.i.toNat + k) % 95]?) ∧
      TCP_SIZE + 1 ≤ strlen l.copied ∧ TCP_SIZE + 3 ≤ l.top := by
  unfold build at h
  cases hg : get f.i s.i s.mem with
  | none => rw [hg] at h; exact absurd h (by simp)
  | some i =>
    rw [hg] at h
    simp only at h
    by_cases hneg : i < 0
    · rw [if_pos hneg] at h
      exact absurd h (by simp)
    · rw [if_neg hneg] at h
      cases hc : strncpy s.mem printable i.toNat (TCP_SIZE + 1) with
      | none => rw [hc] at h; exact absurd h (by simp)
      | some cr =>
        obtain ⟨copied, reads⟩ := cr
        rw [hc] at h
        simp only at h
        cases hs : strcat copied trailer with
        | none => rw [hs] at h; exact absurd h (by simp)
        | some built =>
          rw [hs] at h
          simp only at h
          cases hfd : get f.fd s.fd built with
          | none => rw [hfd] at h; exact absurd h (by simp)
          | some fd =>
            rw [hfd] at h
            simp only at h
            by_cases hlen : TCP_SIZE + 2 ≤ built.length
            · rw [if_pos hlen] at h
              injection h with h
              subst h
              simp only at hi ⊢
              have hi0 : 0 ≤ i := by omega
              have hin : i.toNat < 95 := by omega
              have hmem : 73 ≤ s.mem.length := by
                by_contra hlt
                unfold strncpy at hc
                rw [if_neg (by simpa [TCP_SIZE] using hlt)] at hc
                exact absurd hc (by simp)
              have hcp := strncpy_printable s.mem i.toNat hin hmem
              rw [show TCP_SIZE + 1 = 73 from rfl, hcp] at hc
              injection hc with hc
              injection hc with hc1 hc2
              subst hc1
              have hw := window_length i.toNat hin
              have hnz := window_ne_zero i.toNat hin
              have hsl : strlen (window i.toNat ++ s.mem.drop 73)
                  = 73 + strlen (s.mem.drop 73) := by
                rw [strlen_append _ _ hnz, hw]
              obtain ⟨_, _, _, hb⟩ := strcat_trailer_some _ _ hs
              have hcopied : ∀ k < 73, (window i.toNat ++ s.mem.drop 73)[k]?
                  = P[(i.toNat + k) % 95]? := by
                intro k hk
                rw [List.getElem?_append_left (by rw [hw]; exact hk),
                  window_getElem?_P i.toNat k hin hk]
              refine ⟨hi0, ?_, hcopied, ?_, ?_, ?_⟩
              · rw [List.length_take]
                exact Nat.min_eq_left hlen
              · intro k hk
                rw [List.getElem?_take_of_lt (by simp [TCP_SIZE]; omega), hb,
                  List.getElem?_append_left (by
                    rw [List.length_take, hsl]
                    have := strlen_le (window i.toNat ++ s.mem.drop 73)
                    rw [hsl] at this
                    omega),
                  List.getElem?_take_of_lt (by rw [hsl]; omega)]
                exact hcopied k hk
              · rw [hsl]
                simp [TCP_SIZE]
              · unfold strcat_top
                rw [hsl, strlen_trailer]
                simp [TCP_SIZE]
            · rw [if_neg hlen] at h
              exact absurd h (by simp)

/-- The passes of a run of `tcp_handler` are results of `build`. -/
theorem passes_tcp_loop (f : Frame) :
    ∀ (results : List Int) (s : Vars) (l : Line), l ∈ passes (tcp_loop f results s) →
      ∃ s', build f s' = some l := by
  intro results
  induction results with
  | nil => intro s l hl; simp [tcp_loop, passes] at hl
  | cons r rest ih =>
    intro s l hl
    unfold tcp_loop at hl
    cases hb : build f s with
    | none => rw [hb] at hl; simp [passes] at hl
    | some l0 =>
      rw [hb] at hl
      simp only [passes, List.mem_cons] at hl
      rcases hl with hl | hl
      · exact ⟨s, by rw [hb, hl]⟩
      · revert hl
        cases put f.bytes r l0.built with
        | none => simp [passes]
        | some mem =>
          simp only
          cases get f.bytes r mem with
          | none => simp [passes]
          | some bytes =>
            simp only
            by_cases hneg : bytes < 0
            · rw [if_pos hneg]
              cases get f.fd s.fd mem <;> simp [passes]
            · rw [if_neg hneg]
              cases advance f ⟨mem, r, s.fd, s.i, s.len⟩ with
              | none => simp [passes]
              | some s' => exact ih s' l

/-- In any frame, on any stack and with any results of `send`: every pass of `tcp_handler` that
starts with a cursor below 95 hands to `send` a line of `TCP_SIZE + 2` bytes whose byte 72 is a
pattern character, and `strcat` stores its terminator behind the array in that pass. -/
theorem tcp_pass_overruns_buf (f : Frame) (fd : Int) (mem : List Nat) (results : List Int)
    (l : Line) (hl : l ∈ passes (tcp_handler f fd mem results)) (hi : l.i < 95) :
    l.sent.length = TCP_SIZE + 2 ∧ l.sent[72]? = P[(l.i.toNat + 72) % 95]? ∧
      TCP_SIZE + 1 ≤ strlen l.copied ∧ TCP_SIZE + 3 ≤ l.top := by
  have key : ∃ s', build f s' = some l := by
    unfold tcp_handler at hl
    revert hl
    cases put f.i 0 mem with
    | none => simp [passes]
    | some m1 =>
      simp only
      cases put f.fd fd m1 with
      | none => simp [passes]
      | some m2 =>
        simp only
        cases put f.len (Int.ofNat (strlen printable)) m2 with
        | none => simp [passes]
        | some m3 => exact passes_tcp_loop f results _ l
  obtain ⟨s', hs'⟩ := key
  obtain ⟨_, h1, _, h2, h3, h4⟩ := build_overruns_buf f s' l hs' hi
  exact ⟨h1, h2 72 (by decide), h3, h4⟩

/-! ## The stream character generator

The string at `buf` is not terminated by `strncpy`, so `strcat` stores behind the array.  What
the worker does after that depends on what lies there.  The theorems of this section evaluate
`tcp_handler` on a zeroed stack: with the variables in registers, with the variables behind
`buf` (`frame_behind`), with `fd` behind `buf` (`frame_fd`) and with `bytes` behind `buf`
(`frame_bytes`). -/

set_option maxRecDepth 100000 in
/-- With `bytes` behind `buf` at offset 80 (`frame_bytes`, zeroed stack, descriptor 5, nine
successful calls of `send`): the result of `send`, stored anew in every pass, leaves a
terminator at index 81, so that the stores of `strcat` stop at index 83; the worker keeps
running and the passes start with the cursors 0 to 8. -/
theorem tcp_overrun_stops_at_bytes :
    (passes (tcp_handler frame_bytes 5 (List.replicate 84 0)
        [74, 74, 74, 74, 74, 74, 74, 74, 74])).map (fun l => (l.i, l.top))
      = [(0, 75), (1, 77), (2, 79), (3, 81), (4, 83), (5, 83), (6, 83), (7, 83), (8, 83)] := by
  decide

set_option maxRecDepth 100000 in
/-- C2: on a connection whose region at `buf` is zeroed, the first line handed to `send` is 74
bytes long, but its byte 72 is the pattern character `i` (code 105) and its byte 73 is the
carriage return (code 13): the line feed is not part of the line.  This is so with the
variables in registers and with the variables behind `buf`. -/
theorem tcp_first_line_has_no_line_feed :
    lines (tcp_handler Frame.registers 5 (List.replicate 80 0) [74])
        = [(List.range 73).map (· + 33) ++ [13]] ∧
      lines (tcp_handler frame_behind 5 (List.replicate 96 0) [74])
        = [(List.range 73).map (· + 33) ++ [13]] := by
  decide

set_option maxRecDepth 100000 in
/-- C10: when the region at `buf` is the array itself (75 zero bytes), the first pass leaves
it; when 80 zero bytes are accessible, `strncpy` stores no terminator (byte 72 of `buf` is the
pattern character of code 105, the string at `buf` is 73 characters long), `strcat` stores its
terminator at index 75, behind the array, and in the second pass at index 77.  This is so with
the variables in registers and, on 96 zero bytes, with the variables behind `buf`. -/
theorem tcp_handler_overruns_buf :
    tcp_handler Frame.registers 5 (List.replicate (TCP_SIZE + 3) 0) [74] = [TcpEvent.fault 0] ∧
      (passes (tcp_handler Frame.registers 5 (List.replicate 80 0) [74, 74])).map
          (fun l => (l.copied[72]?, strlen l.copied, l.top))
        = [(some 105, 73, 75), (some 106, 75, 77)] ∧
      (passes (tcp_handler frame_behind 5 (List.replicate 96 0) [74, 74])).map
          (fun l => (l.copied[72]?, strlen l.copied, l.top))
        = [(some 105, 73, 75), (some 106, 75, 77)] := by
  decide

end Chargen

/-! ## The datagram character generator -/

namespace Chargen

theorem printable_getD_mem (r : Nat) : printable.getD (r % strlen printable) 0 ∈ P := by
  have hk : r % 190 % 95 < 95 := Nat.mod_lt _ (by decide)
  have h := P_getElem? _ hk
  rw [strlen_printable, List.getD_eq_getElem?_getD,
    printable_getElem? _ (Nat.mod_lt _ (by decide)), h]
  exact List.getElem?_mem h

theorem recvfrom_length (buf data : List Nat) : (recvfrom buf data).length = buf.length := by
  simp [recvfrom]

theorem udp_fill_length (rand_r : Nat → Nat × Nat) :
    ∀ (todo i : Nat) (buf : List Nat) (state : Nat),
      (udp_fill rand_r todo i buf state).1.length = buf.length := by
  intro todo
  induction todo with
  | zero => intro i buf state; rfl
  | succ todo ih => intro i buf state; rw [udp_fill, ih, List.length_set]

theorem udp_fill_mem (rand_r : Nat → Nat × Nat) :
    ∀ (todo i : Nat) (buf : List Nat) (state : Nat),
      (∀ j, j < i → ∀ x, buf[j]? = some x → x ∈ P) →
        ∀ j, j < i + todo → ∀ x, (udp_fill rand_r todo i buf state).1[j]? = some x → x ∈ P := by
  intro todo
  induction todo with
  | zero => intro i buf state h j hj x hx; exact h j hj x hx
  | succ todo ih =>
    intro i buf state h j hj x hx
    rw [udp_fill] at hx
    refine ih (i + 1) _ _ ?_ j (by omega) x hx
    intro j' hj' y hy
    rw [List.getElem?_set] at hy
    by_cases e : i = j'
    · rw [if_pos e] at hy
      split at hy
      · injection hy with hy
        rw [← hy]
        exact printable_getD_mem _
      · exact absurd hy (by simp)
    · rw [if_neg e] at hy
      exact h j' (by omega) y hy

theorem udp_fill_indep (rand_r : Nat → Nat × Nat) :
    ∀ (todo i : Nat) (buf1 buf2 : List Nat) (state : Nat),
      buf1.length = buf2.length → (∀ j, j < i → buf1[j]? = buf2[j]?) →
        (∀ j, j < i + todo →
          (udp_fill rand_r todo i buf1 state).1[j]? = (udp_fill rand_r todo i buf2 state).1[j]?) ∧
        (udp_fill rand_r todo i buf1 state).2 = (udp_fill rand_r todo i buf2 state).2 := by
  intro todo
  induction todo with
  | zero => intro i buf1 buf2 state _ h; exact ⟨fun j hj => h j hj, rfl⟩
  | succ todo ih =>
    intro i buf1 buf2 state hlen h
    rw [udp_fill, udp_fill]
    obtain ⟨h1, h2⟩ := ih (i + 1)
      (buf1.set i (printable.getD ((rand_r state).1 % strlen printable) 0))
      (buf2.set i (printable.getD ((rand_r state).1 % strlen printable) 0)) (rand_r state).2
      (by rw [List.length_set, List.length_set, hlen])
      (by
        intro j hj
        rw [List.getElem?_set, List.getElem?_set, hlen]
        by_cases e : i = j
        · rw [if_pos e, if_pos e]
        · rw [if_neg e, if_neg e]
          exact h j (by omega))
    exact ⟨fun j hj => h1 j (by omega), h2⟩

theorem take_eq_of_getElem? (a b : List Nat) (n : Nat) (h : ∀ j, j < n → a[j]? = b[j]?) :
    a.take n = b.take n := by
  apply List.ext_getElem?
  intro j
  rw [List.getElem?_take, List.getElem?_take]
  split
  · next hj => exact h j hj
  · rfl

theorem mem_take_P (b : List Nat) (n : Nat) (h : ∀ j, j < n → ∀ x, b[j]? = some x → x ∈ P) :
    ∀ x ∈ b.take n, x ∈ P := by
  intro x hx
  obtain ⟨j, hj⟩ := List.mem_iff_getElem?.1 hx
  rw [List.getElem?_take] at hj
  split at hj
  · next hjn => exact h j hjn x hj
  · exact absurd hj (by simp)

theorem udp_loop_cons (rand_r : Nat → Nat × Nat) (d : Datagram) (rest : List Datagram)
    (buf : List Nat) (state : Nat) :
    udp_loop rand_r (d :: rest) buf state =
      Call.recvfrom ::
        (if d.bytes < 0 then [Call.close]
         else
           Call.sendto
               (udp_fill rand_r ((rand_r state).1 % UDP_SIZE) 0 (recvfrom buf d.data)
                 (rand_r state).2).1
               ((rand_r state).1 % UDP_SIZE) ::
             (if d.sent < 0 then [Call.err]
              else udp_loop rand_r rest
                (udp_fill rand_r ((rand_r state).1 % UDP_SIZE) 0 (recvfrom buf d.data)
                  (rand_r state).2).1
                (udp_fill rand_r ((rand_r state).1 % UDP_SIZE) 0 (recvfrom buf d.data)
                  (rand_r state).2).2)) := by
  rw [udp_loop]

theorem udp_loop_sendto (rand_r : Nat → Nat × Nat) :
    ∀ (ds : List Datagram) (buf : List Nat) (state : Nat), buf.length = UDP_SIZE →
      ∀ b n, Call.sendto b n ∈ udp_loop rand_r ds buf state →
        n < UDP_SIZE ∧ b.length = UDP_SIZE ∧ ∀ x ∈ b.take n, x ∈ P := by
  intro ds
  induction ds with
  | nil => intro buf state _ b n h; simp [udp_loop] at h
  | cons d rest ih =>
    intro buf state hbuf b n h
    rw [udp_loop_cons] at h
    simp only [List.mem_cons] at h
    rcases h with h | h
    · exact absurd h (by simp)
    · by_cases hb : d.bytes < 0
      · rw [if_pos hb] at h; simp at h
      · rw [if_neg hb] at h
        simp only [List.mem_cons] at h
        rcases h with h | h
        · injection h with h1 h2
          subst h1 h2
          refine ⟨Nat.mod_lt _ (by decide), ?_, ?_⟩
          · rw [udp_fill_length, recvfrom_length, hbuf]
          · apply mem_take_P
            intro j hj x hx
            exact udp_fill_mem rand_r _ 0 _ _ (fun _ h0 => absurd h0 (by omega)) j
              (by omega) x hx
        · by_cases hs : d.sent < 0
          · rw [if_pos hs] at h; simp at h
          · rw [if_neg hs] at h
            exact ih _ _ (by rw [udp_fill_length, recvfrom_length, hbuf]) b n h

theorem mem_replies (t : List Call) (reply : List Nat) (h : reply ∈ replies t) :
    ∃ b n, Call.sendto b n ∈ t ∧ reply = b.take n := by
  induction t with
  | nil => simp [replies] at h
  | cons c cs ih =>
    cases c with
    | sendto b n =>
      simp only [replies, List.mem_cons] at h
      rcases h with h | h
      · exact ⟨b, n, by simp, h⟩
      · obtain ⟨b', n', h1, h2⟩ := ih h
        exact ⟨b', n', by simp [h1], h2⟩
    | recvfrom =>
      obtain ⟨b', n', h1, h2⟩ := ih (by simpa [replies] using h)
      exact ⟨b', n', by simp [h1], h2⟩
    | close =>
      obtain ⟨b', n', h1, h2⟩ := ih (by simpa [replies] using h)
      exact ⟨b', n', by simp [h1], h2⟩
    | err =>
      obtain ⟨b', n', h1, h2⟩ := ih (by simpa [replies] using h)
      exact ⟨b', n', by simp [h1], h2⟩

/-- C4: when `udp_handler` receives a datagram successfully, it hands a reply to `sendto`; and
every reply it hands to `sendto`, for any behaviour of `rand_r`, any initial random state and
any datagrams received, is at most 511 bytes long and consists of characters of the printable
pattern `P`. -/
theorem udp_reply_printable (rand_r : Nat → Nat × Nat) (state : Nat) (buf : List Nat)
    (d : Datagram) (rest : List Datagram) (hbuf : buf.length = UDP_SIZE) (hd : 0 ≤ d.bytes) :
    (∃ reply more, replies (udp_handler rand_r state buf (d :: rest)) = reply :: more) ∧
      ∀ reply ∈ replies (udp_handler rand_r state buf (d :: rest)),
        reply.length ≤ 511 ∧ ∀ x ∈ reply, x ∈ P := by
  constructor
  · rw [udp_handler, udp_loop_cons, if_neg (not_lt.2 hd)]
    exact ⟨_, _, rfl⟩
  · intro reply hr
    obtain ⟨b, n, h1, h2⟩ := mem_replies _ reply hr
    obtain ⟨h3, _, h5⟩ := udp_loop_sendto rand_r _ buf state hbuf b n h1
    simp only [UDP_SIZE] at h3
    rw [h2]
    refine ⟨?_, h5⟩
    rw [List.length_take]
    omega

/-- C4, at the generator `counter` started in state 2, a zeroed `buf` and two datagrams. -/
theorem udp_reply_printable_witness :
    (∃ reply more, replies (udp_handler counter 2 (List.replicate 512 0)
        (⟨2, [104, 105], 2⟩ :: [⟨0, [], 0⟩])) = reply :: more) ∧
      ∀ reply ∈ replies (udp_handler counter 2 (List.replicate 512 0)
          (⟨2, [104, 105], 2⟩ :: [⟨0, [], 0⟩])),
        reply.length ≤ 511 ∧ ∀ x ∈ reply, x ∈ P :=
  udp_reply_printable counter 2 (List.replicate 512 0) ⟨2, [104, 105], 2⟩ [⟨0, [], 0⟩]
    (List.length_replicate 512 0) (by decide)

set_option maxRecDepth 100000 in
/-- C5, as stated, fails: on a zero-length receive (`recvfrom` returns 0) `udp_handler` does not
leave its loop; it hands a reply to `sendto` and does not call `close`. -/
theorem udp_zero_length_receive_is_answered :
    udp_handler counter 2 (List.replicate 512 0) [⟨0, [], 0⟩] ≠ [Call.recvfrom, Call.close] ∧
      replies (udp_handler counter 2 (List.replicate 512 0) [⟨0, [], 0⟩]) = [[36, 37]] ∧
      Call.close ∉ udp_handler counter 2 (List.replicate 512 0) [⟨0, [], 0⟩] := by
  decide

/-- C5, amended: when `recvfrom` returns a negative value, `udp_handler` leaves its loop without
a reply and calls `close`, and the process goes on; for every other value returned by
`recvfrom`, zero included, it hands exactly one reply to `sendto` and then, when `sendto` does
not fail, goes on with the next datagram, while a failing `sendto` ends in `err`. -/
theorem udp_receive_outcomes (rand_r : Nat → Nat × Nat) (state : Nat) (buf : List Nat)
    (d : Datagram) (rest : List Datagram) :
    (d.bytes < 0 → udp_handler rand_r state buf (d :: rest) = [Call.recvfrom, Call.close]) ∧
      (0 ≤ d.bytes → ∃ b n buf' state',
        udp_handler rand_r state buf (d :: rest) =
          Call.recvfrom :: Call.sendto b n ::
            (if d.sent < 0 then [Call.err] else udp_handler rand_r state' buf' rest)) := by
  constructor
  · intro h
    rw [udp_handler, udp_loop_cons, if_pos h]
  · intro h
    rw [udp_handler, udp_loop_cons, if_neg (not_lt.2 h)]
    exact ⟨_, _, _, _, rfl⟩

/-- C5, amended, at a failing receive and at a zero-length receive. -/
theorem udp_receive_outcomes_witness :
    udp_handler counter 2 (List.replicate 512 0) (⟨-1, [], 0⟩ :: [⟨0, [], 0⟩])
        = [Call.recvfrom, Call.close] ∧
      ∃ b n buf' state',
        udp_handler counter 2 (List.replicate 512 0) (⟨0, [], 0⟩ :: [⟨-1, [], 0⟩]) =
          Call.recvfrom :: Call.sendto b n ::
            (if (⟨0, [], 0⟩ : Datagram).sent < 0 then [Call.err]
             else udp_handler counter state' buf' [⟨-1, [], 0⟩]) :=
  ⟨(udp_receive_outcomes counter 2 (List.replicate 512 0) ⟨-1, [], 0⟩ [⟨0, [], 0⟩]).1
      (by decide),
   (udp_receive_outcomes counter 2 (List.replicate 512 0) ⟨0, [], 0⟩ [⟨-1, [], 0⟩]).2
      (by decide)⟩

/-- C6: two passes of the loop of `udp_handler` that start in the same random state and both
receive successfully, with any contents of `buf` and any datagrams received, hand to `sendto`
the same byte count and replies that are equal byte by byte. -/
theorem udp_reply_independent (rand_r : Nat → Nat × Nat) (state : Nat) (buf1 buf2 : List Nat)
    (d1 d2 : Datagram) (h1 : buf1.length = UDP_SIZE) (h2 : buf2.length = UDP_SIZE)
    (r1 : 0 ≤ d1.bytes) (r2 : 0 ≤ d2.bytes) :
    ∃ n b1 b2,
      udp_handler rand_r state buf1 [d1]
          = Call.recvfrom :: Call.sendto b1 n :: (if d1.sent < 0 then [Call.err] else []) ∧
        udp_handler rand_r state buf2 [d2]
          = Call.recvfrom :: Call.sendto b2 n :: (if d2.sent < 0 then [Call.err] else []) ∧
        b1.take n = b2.take n ∧ (b1.take n).length = n ∧
        replies (udp_handler rand_r state buf1 [d1])
          = replies (udp_handler rand_r state buf2 [d2]) := by
  have hlen : (recvfrom buf1 d1.data).length = (recvfrom buf2 d2.data).length := by
    rw [recvfrom_length, recvfrom_length, h1, h2]
  obtain ⟨e, _⟩ := udp_fill_indep rand_r ((rand_r state).1 % UDP_SIZE) 0
    (recvfrom buf1 d1.data) (recvfrom buf2 d2.data) (rand_r state).2 hlen
    (fun _ h0 => absurd h0 (by omega))
  have et := take_eq_of_getElem? _ _ ((rand_r state).1 % UDP_SIZE)
    (fun j hj => e j (by omega))
  have hn : (rand_r state).1 % UDP_SIZE < UDP_SIZE := Nat.mod_lt _ (by decide)
  have t1 : udp_handler rand_r state buf1 [d1]
      = Call.recvfrom :: Call.sendto
          (udp_fill rand_r ((rand_r state).1 % UDP_SIZE) 0 (recvfrom buf1 d1.data)
            (rand_r state).2).1 ((rand_r state).1 % UDP_SIZE) ::
          (if d1.sent < 0 then [Call.err] else []) := by
    rw [udp_handler, udp_loop_cons, if_neg (not_lt.2 r1)]
    simp [udp_loop]
  have t2 : udp_handler rand_r state buf2 [d2]
      = Call.recvfrom :: Call.sendto
          (udp_fill rand_r ((rand_r state).1 % UDP_SIZE) 0 (recvfrom buf2 d2.data)
            (rand_r state).2).1 ((rand_r state).1 % UDP_SIZE) ::
          (if d2.sent < 0 then [Call.err] else []) := by
    rw [udp_handler, udp_loop_cons, if_neg (not_lt.2 r2)]
    simp [udp_loop]
  refine ⟨_, _, _, t1, t2, et, ?_, ?_⟩
  · rw [List.length_take, udp_fill_length, recvfrom_length, h1]
    omega
  · rw [t1, t2]
    by_cases s1 : d1.sent < 0 <;> by_cases s2 : d2.sent < 0 <;> simp [replies, s1, s2, et]

/-- C6, at the generator `counter` started in state 2: a two-byte datagram received into a
zeroed `buf`, and a 512-byte datagram received into a `buf` of bytes 7. -/
theorem udp_reply_independent_witness :
    ∃ n b1 b2,
      udp_handler counter 2 (List.replicate 512 0) [⟨2, [104, 105], 2⟩]
          = Call.recvfrom :: Call.sendto b1 n ::
              (if (⟨2, [104, 105], 2⟩ : Datagram).sent < 0 then [Call.err] else []) ∧
        udp_handler counter 2 (List.replicate 512 7) [⟨512, List.replicate 512 65, 0⟩]
          = Call.recvfrom :: Call.sendto b2 n ::
              (if (⟨512, List.replicate 512 65, 0⟩ : Datagram).sent < 0 then [Call.err]
               else []) ∧
        b1.take n = b2.take n ∧ (b1.take n).length = n ∧
        replies (udp_handler counter 2 (List.replicate 512 0) [⟨2, [104, 105], 2⟩])
          = replies (udp_handler counter 2 (List.replicate 512 7)
              [⟨512, List.replicate 512 65, 0⟩]) :=
  udp_reply_independent counter 2 (List.replicate 512 0) (List.replicate 512 7)
    ⟨2, [104, 105], 2⟩ ⟨512, List.replicate 512 65, 0⟩ (List.length_replicate 512 0)
    (List.length_replicate 512 7) (by decide) (by decide)

end Chargen

/-! ## The discard worker -/

namespace Discard

theorem client_loop_positive (pre rest : List Int) (hpre : ∀ x ∈ pre, 0 < x) :
    client_loop (pre ++ rest) = List.replicate pre.length Call.recvfrom ++ client_loop rest := by
  induction pre with
  | nil => simp
  | cons b pre ih =>
    have hb : ¬ b ≤ 0 := not_le.2 (hpre b (by simp))
    rw [List.cons_append, client_loop, if_neg hb, ih (fun x hx => hpre x (by simp [hx]))]
    simp [List.replicate_succ]

theorem client_loop_no_sendto (results : List Int) :
    ∀ c ∈ client_loop results, c = Call.recvfrom ∨ c = Call.close := by
  induction results with
  | nil => intro c h; simp [client_loop] at h
  | cons b rest ih =>
    intro c h
    rw [client_loop] at h
    simp only [List.mem_cons] at h
    rcases h with h | h
    · exact Or.inl h
    · by_cases hb : b ≤ 0
      · rw [if_pos hb] at h
        simp at h
        exact Or.inr h
      · rw [if_neg hb] at h
        exact ih c h

/-- C7: when the calls of `recvfrom` return the positive values `pre` and then the value
`r ≤ 0`, `client_handler` calls `recvfrom` once for each value of `pre` and is still in its loop
(no `close`); on `pre ++ r :: post` it calls `recvfrom` `pre.length + 1` times, then `close`
once, and nothing after that, whatever `post` is; and for every list of results its calls are
calls of `recvfrom` and `close` only, so that it hands no reply to `sendto`. -/
theorem client_handler_trace (pre : List Int) (r : Int) (post : List Int)
    (hpre : ∀ x ∈ pre, 0 < x) (hr : r ≤ 0) :
    client_handler pre = List.replicate pre.length Call.recvfrom ∧
      client_handler (pre ++ r :: post)
        = List.replicate (pre.length + 1) Call.recvfrom ++ [Call.close] ∧
      ∀ results : List Int,
        (∀ c ∈ client_handler results, c = Call.recvfrom ∨ c = Call.close) ∧
          replies (client_handler results) = [] := by
  refine ⟨?_, ?_, ?_⟩
  · have h := client_loop_positive pre [] hpre
    rw [List.append_nil] at h
    rw [client_handler, h]
    simp [client_loop]
  · rw [client_handler, client_loop_positive pre (r :: post) hpre, client_loop, if_pos hr]
    simp [List.replicate_succ']
  · intro results
    refine ⟨client_loop_no_sendto results, ?_⟩
    cases hrep : replies (client_handler results) with
    | nil => rfl
    | cons reply more =>
      obtain ⟨b, n, h1, _⟩ := Chargen.mem_replies (client_handler results) reply
        (by rw [hrep]; simp)
      rcases client_loop_no_sendto results _ h1 with h | h <;> exact absurd h (by simp)

/-- C7, at two positive results followed by a zero-length read and further results. -/
theorem client_handler_trace_witness :
    client_handler [5, 1024] = List.replicate [(5 : Int), 1024].length Call.recvfrom ∧
      client_handler ([5, 1024] ++ 0 :: [7, -1])
        = List.replicate ([(5 : Int), 1024].length + 1) Call.recvfrom ++ [Call.close] ∧
      ∀ results : List Int,
        (∀ c ∈ client_handler results, c = Call.recvfrom ∨ c = Call.close) ∧
          replies (client_handler results) = [] :=
  client_handler_trace [5, 1024] 0 [7, -1] (by decide) (by decide)

end Discard

